import Mathlib

set_option linter.unusedSectionVars false

/-!
Shallow embedding of the LSM-tree cache storage engine
(`src/server/index.js`, classes `MemTable`, `SSTable`, `LSMTree`).

JavaScript `Map` objects are modelled as insertion-ordered association
lists; `Date.now()` becomes an explicit `now : Nat` argument (one instant
per engine operation); filesystem effects are modelled by an explicit
disk component of the engine state, with boolean oracles deciding whether
each write succeeds, mirroring where the code catches or propagates
exceptions.
-/

namespace LsmCache

/-- Error kind surfaced by the engine; the code only distinguishes I/O failure. -/
inductive Err where
  | ioError
deriving DecidableEq, Repr

section Model

variable {K V : Type} [DecidableEq K]

/-- JS `Map.get`: the value stored under the first matching key, if any. -/
def mapGet {α : Type} (m : List (K × α)) (k : K) : Option α :=
  match m with
  | [] => none
  | p :: rest => if p.1 = k then some p.2 else mapGet rest k

/-- JS `Map.set`: overwrite in place when the key is present (keeping its
position), otherwise append at the end. -/
def mapSet {α : Type} (m : List (K × α)) (k : K) (v : α) : List (K × α) :=
  match m with
  | [] => [(k, v)]
  | p :: rest => if p.1 = k then (k, v) :: rest else p :: mapSet rest k v

/-- JS `Map.delete`: remove the entry stored under the key, if any. -/
def mapDelete {α : Type} (m : List (K × α)) (k : K) : List (K × α) :=
  match m with
  | [] => []
  | p :: rest => if p.1 = k then rest else p :: mapDelete rest k

/-- The record stored under every key: `{ value, expiresAt, timestamp }`.
A `value` of `none` models the JS `null` tombstone; an `expiresAt` of
`none` models the JS `null` "no expiry" sentinel. -/
structure Entry (V : Type) where
  value : Option V
  expiresAt : Option Nat
  timestamp : Nat
deriving DecidableEq, Repr

/-- The keep condition used throughout the code:
`!entry.expiresAt || Date.now() <= entry.expiresAt`. -/
def Entry.live (e : Entry V) (now : Nat) : Bool :=
  match e.expiresAt with
  | none => true
  | some x => decide (now ≤ x)

/-- The `expiresAt` computed by `MemTable.put`:
`ttl ? Date.now() + ttl : null` (so `0` and `null` both yield `null`). -/
def mkExpires (ttl : Option Nat) (now : Nat) : Option Nat :=
  match ttl with
  | none => none
  | some t => if t = 0 then none else some (now + t)

/-- In-memory write buffer: a bounded key-to-entry map. -/
structure MemTable (K V : Type) where
  data : List (K × Entry V)
  maxSize : Nat
deriving DecidableEq, Repr

/-- JS `MemTable.put`: store the entry and report whether the table has
reached capacity (`this.data.size >= this.maxSize` after the insert). -/
def MemTable.put (m : MemTable K V) (k : K) (v : Option V) (ttl : Option Nat)
    (now : Nat) : MemTable K V × Bool :=
  let d := mapSet m.data k ⟨v, mkExpires ttl now, now⟩
  ({ m with data := d }, decide (m.maxSize ≤ d.length))

/-- JS `MemTable.get`: return the stored entry (tombstone or not) when it is
present and unexpired; lazily remove it and report a miss when it is present
but expired. -/
def MemTable.get (m : MemTable K V) (k : K) (now : Nat) :
    Option (Entry V) × MemTable K V :=
  match mapGet m.data k with
  | none => (none, m)
  | some e =>
    if e.live now then (some e, m)
    else (none, { m with data := mapDelete m.data k })

/-- JS `MemTable.getAllEntries`: return the unexpired entries and sweep the
expired ones out of the table. -/
def MemTable.getAllEntries (m : MemTable K V) (now : Nat) :
    List (K × Entry V) × MemTable K V :=
  (m.data.filter (fun p => p.2.live now),
   { m with data := m.data.filter (fun p => p.2.live now) })

/-- Immutable on-disk segment; `filePath` is set on first persist. File
paths are abstracted to `Nat` identifiers. -/
structure SSTable (K V : Type) where
  data : List (K × Entry V)
  createdAt : Nat
  id : Nat
  filePath : Option Nat
deriving DecidableEq, Repr

/-- JS `SSTable.get`: present and unexpired, without mutating anything. -/
def SSTable.get (t : SSTable K V) (k : K) (now : Nat) : Option (Entry V) :=
  match mapGet t.data k with
  | none => none
  | some e => if e.live now then some e else none

/-- JS `SSTable.getAllEntries`: the unexpired entries (tombstones included). -/
def SSTable.getAllEntries (t : SSTable K V) (now : Nat) : List (K × Entry V) :=
  t.data.filter (fun p => p.2.live now)

/-- Content of one `sstable_<id>.json` file on disk. -/
structure SegFile (K V : Type) where
  id : Nat
  createdAt : Nat
  entries : List (K × Entry V)
deriving DecidableEq, Repr

/-- JS `SSTable.saveToDisk`: fix the file path on first save and write the
file (overwriting any file already at that path). -/
def SSTable.saveToDisk (t : SSTable K V) (disk : List (Nat × SegFile K V)) :
    SSTable K V × List (Nat × SegFile K V) :=
  let p := t.filePath.getD t.id
  ({ t with filePath := some p }, mapSet disk p ⟨t.id, t.createdAt, t.data⟩)

/-- The sequential `deleteFromDisk` loop: unlink each segment's backing file
when it has one and the file exists. -/
def deleteFiles (disk : List (Nat × SegFile K V)) (segs : List (SSTable K V)) :
    List (Nat × SegFile K V) :=
  segs.foldl (fun d t =>
    match t.filePath with
    | none => d
    | some p => mapDelete d p) disk

/-- Engine state: MemTable, ordered segment list, configuration, plus the
modelled durable state (WAL file content and segment files on disk). -/
structure LSMTree (K V : Type) where
  memTable : MemTable K V
  ssTables : List (SSTable K V)
  maxSSTables : Nat
  defaultTTL : Nat
  wal : Option (List (K × Entry V))
  disk : List (Nat × SegFile K V)
deriving DecidableEq, Repr

/-- Filesystem oracle: whether each write performed by one engine operation
succeeds, and the fresh identifiers drawn for new segments. -/
structure Fs where
  putWalOk : Bool
  flushPersistOk : Bool
  flushWalOk : Bool
  compactPersistOk : Bool
  flushId : Nat
  compactId : Nat
deriving DecidableEq, Repr

/-- Oracle under which every filesystem write succeeds. -/
def Fs.allOk (i j : Nat) : Fs := ⟨true, true, true, true, i, j⟩

/-- JS `LSMTree.saveWAL`: rewrite the WAL with the full MemTable contents;
a write failure is caught and logged, never propagated. -/
def LSMTree.saveWAL (s : LSMTree K V) (ok : Bool) : LSMTree K V :=
  if ok then { s with wal := some s.memTable.data } else s

/-- The merge loop of JS `LSMTree.compact`: walk the segments oldest to
newest, keeping per key the latest unexpired non-tombstone entry. -/
def mergeSegs (segs : List (SSTable K V)) (now : Nat) : List (K × Entry V) :=
  segs.foldl (fun acc t =>
    t.data.foldl (fun a p =>
      if p.2.value.isSome && p.2.live now then mapSet a p.1 p.2 else a) acc) []

/-- JS `LSMTree.compact`: merge all segments (keeping, per key, the last
unexpired non-tombstone occurrence in oldest-to-newest order), then delete
the old segment files, then persist the merged segment and replace the
in-memory list. A persist failure propagates after the old files are gone. -/
def LSMTree.compact (s : LSMTree K V) (now id : Nat) (persistOk : Bool) :
    LSMTree K V × Option Err :=
  if s.ssTables.length ≤ 1 then (s, none)
  else
    let merged := mergeSegs s.ssTables now
    let disk1 := deleteFiles s.disk s.ssTables
    if persistOk then
      let seg0 : SSTable K V := ⟨merged, now, id, none⟩
      let sd := seg0.saveToDisk disk1
      ({ s with ssTables := [sd.1], disk := sd.2 }, none)
    else
      ({ s with disk := disk1 }, some .ioError)

/-- JS `LSMTree.flush`: no-op on an empty MemTable; otherwise seal the
MemTable into a new segment, persist it (a failure propagates before any
in-memory change), append it, clear the MemTable, rewrite the WAL (failure
swallowed), and compact when the segment count exceeds the bound. -/
def LSMTree.flush (s : LSMTree K V) (now : Nat) (fs : Fs) :
    LSMTree K V × Option Err :=
  if s.memTable.data.length = 0 then (s, none)
  else if fs.flushPersistOk then
    let seg0 : SSTable K V := ⟨s.memTable.data, now, fs.flushId, none⟩
    let sd := seg0.saveToDisk s.disk
    let s1 : LSMTree K V :=
      { s with ssTables := s.ssTables ++ [sd.1],
               memTable := { s.memTable with data := [] },
               disk := sd.2 }
    let s2 := s1.saveWAL fs.flushWalOk
    if s2.maxSSTables < s2.ssTables.length then
      s2.compact now fs.compactId fs.compactPersistOk
    else (s2, none)
  else (s, some .ioError)

/-- Resolution of the optional `ttl` parameter of `LSMTree.put`: an omitted
argument defaults to `this.defaultTTL`; an explicit argument (a number, or
the JS `null` modelled as `some none`) is passed through. -/
def resolveTtl (ttl : Option (Option Nat)) (dflt : Nat) : Option Nat :=
  ttl.getD (some dflt)

/-- JS `LSMTree.put`: insert into the MemTable, rewrite the WAL (failure
swallowed inside `saveWAL`), and flush when the MemTable reports full. -/
def LSMTree.put (s : LSMTree K V) (k : K) (v : Option V)
    (ttl : Option (Option Nat)) (now : Nat) (fs : Fs) :
    LSMTree K V × Option Err :=
  let mr := s.memTable.put k v (resolveTtl ttl s.defaultTTL) now
  let s1 := LSMTree.saveWAL { s with memTable := mr.1 } fs.putWalOk
  if mr.2 then s1.flush now fs else (s1, none)

/-- JS `LSMTree.delete`: insert a tombstone (`memTable.put(key, null, null)`)
and rewrite the WAL; the full-MemTable flag returned by the insert is
discarded and no error is ever surfaced. -/
def LSMTree.delete (s : LSMTree K V) (k : K) (now : Nat) (walOk : Bool) :
    LSMTree K V × Option Err :=
  let mr := s.memTable.put k none none now
  (LSMTree.saveWAL { s with memTable := mr.1 } walOk, none)

/-- The segment walk of JS `LSMTree.get`: newest to oldest (the list is
ordered oldest first), returning the first present unexpired entry. -/
def getFromSegs : List (SSTable K V) → K → Nat → Option (Entry V)
  | [], _, _ => none
  | t :: rest, k, now =>
    match getFromSegs rest k now with
    | some e => some e
    | none => t.get k now

/-- JS `LSMTree.get`: consult the MemTable first (its lazy expiry may mutate
the engine), then the segments newest to oldest. -/
def LSMTree.get (s : LSMTree K V) (k : K) (now : Nat) :
    Option (Entry V) × LSMTree K V :=
  let mr := s.memTable.get k now
  let s1 : LSMTree K V := { s with memTable := mr.2 }
  match mr.1 with
  | some e => (some e, s1)
  | none => (getFromSegs s.ssTables k now, s1)

/-- JS `LSMTree.getAllEntries`: accumulate unexpired segment entries oldest
to newest, then apply the MemTable's unexpired entries last, a MemTable
tombstone deleting the key from the accumulator. -/
def LSMTree.getAllEntries (s : LSMTree K V) (now : Nat) :
    List (K × Entry V) × LSMTree K V :=
  let fromSegs := s.ssTables.foldl (fun acc t =>
    (t.getAllEntries now).foldl (fun a p => mapSet a p.1 p.2) acc) []
  let mr := s.memTable.getAllEntries now
  let final := mr.1.foldl (fun a p =>
    if p.2.value.isSome then mapSet a p.1 p.2 else mapDelete a p.1) fromSegs
  (final, { s with memTable := mr.2 })

end Model

section MapLemmas

variable {K α : Type} [DecidableEq K]

theorem mapGet_mapSet_self (m : List (K × α)) (k : K) (v : α) :
    mapGet (mapSet m k v) k = some v := by
  induction m with
  | nil => simp [mapSet, mapGet]
  | cons p rest ih =>
    by_cases h : p.1 = k
    · simp [mapSet, mapGet, h]
    · simp [mapSet, mapGet, h, ih]

theorem mapGet_mapSet_ne (m : List (K × α)) {q k : K} (v : α) (h : q ≠ k) :
    mapGet (mapSet m q v) k = mapGet m k := by
  induction m with
  | nil => simp [mapSet, mapGet, h]
  | cons p rest ih =>
    by_cases hp : p.1 = q
    · simp [mapSet, mapGet, hp, h, ih]
    · simp [mapSet, mapGet, hp, h, ih]

theorem mapGet_mapDelete_ne (m : List (K × α)) {q k : K} (h : q ≠ k) :
    mapGet (mapDelete m q) k = mapGet m k := by
  induction m with
  | nil => simp [mapDelete]
  | cons p rest ih =>
    by_cases hp : p.1 = q
    · have hk : ¬ p.1 = k := fun he => h (hp.symm.trans he)
      simp [mapDelete, mapGet, hp, hk, h]
    · simp [mapDelete, mapGet, hp, ih]

theorem mapGet_eq_none_of_not_mem (m : List (K × α)) {k : K}
    (h : k ∉ m.map Prod.fst) : mapGet m k = none := by
  induction m with
  | nil => rfl
  | cons p rest ih =>
    simp only [List.map_cons, List.mem_cons] at h
    push_neg at h
    have h1 : ¬ p.1 = k := fun he => h.1 he.symm
    simp [mapGet, h1, ih h.2]

theorem mapGet_mem (m : List (K × α)) {k : K} {v : α}
    (h : mapGet m k = some v) : (k, v) ∈ m := by
  induction m with
  | nil => simp [mapGet] at h
  | cons p rest ih =>
    by_cases hp : p.1 = k
    · simp only [mapGet, hp, if_pos, Option.some.injEq] at h
      subst h
      cases p with
      | mk a b =>
        simp only at hp
        rw [← hp]
        exact List.mem_cons_self _ _
    · simp only [mapGet, hp, if_neg, if_false] at h
      exact List.mem_cons_of_mem _ (ih h)

theorem mapGet_mapDelete_self (m : List (K × α)) (k : K)
    (h : (m.map Prod.fst).Nodup) : mapGet (mapDelete m k) k = none := by
  induction m with
  | nil => rfl
  | cons p rest ih =>
    simp only [List.map_cons, List.nodup_cons] at h
    by_cases hp : p.1 = k
    · simp only [mapDelete, hp, if_pos]
      exact mapGet_eq_none_of_not_mem rest (hp ▸ h.1)
    · simp [mapDelete, mapGet, hp, ih h.2]

theorem mapGet_mapDelete_of_eq_none (m : List (K × α)) (q : K) {k : K}
    (h : mapGet m k = none) : mapGet (mapDelete m q) k = none := by
  induction m with
  | nil => rfl
  | cons p rest ih =>
    by_cases hk : p.1 = k
    · simp [mapGet, hk] at h
    · simp only [mapGet, hk, if_neg, if_false] at h
      by_cases hq : p.1 = q
      · simpa [mapDelete, hq] using h
      · simp [mapDelete, mapGet, hq, hk, ih h]

theorem mapSet_ne_nil (m : List (K × α)) (k : K) (v : α) :
    mapSet m k v ≠ [] := by
  cases m with
  | nil => simp [mapSet]
  | cons p rest =>
    by_cases h : p.1 = k <;> simp [mapSet, h]

theorem mem_mapSet (m : List (K × α)) (k : K) (v : α) {p : K × α}
    (h : p ∈ mapSet m k v) : p = (k, v) ∨ p ∈ m := by
  induction m with
  | nil => simpa [mapSet] using h
  | cons q rest ih =>
    by_cases hq : q.1 = k
    · simp only [mapSet, hq, if_pos, List.mem_cons] at h
      rcases h with h | h
      · exact Or.inl h
      · exact Or.inr (List.mem_cons_of_mem _ h)
    · simp only [mapSet, hq, if_neg, if_false, List.mem_cons] at h
      rcases h with h | h
      · exact Or.inr (h ▸ List.mem_cons_self _ _)
      · rcases ih h with h' | h'
        · exact Or.inl h'
        · exact Or.inr (List.mem_cons_of_mem _ h')

theorem mem_mapDelete (m : List (K × α)) (k : K) {p : K × α}
    (h : p ∈ mapDelete m k) : p ∈ m := by
  induction m with
  | nil => simp [mapDelete] at h
  | cons q rest ih =>
    by_cases hq : q.1 = k
    · simp only [mapDelete, hq, if_pos] at h
      exact List.mem_cons_of_mem _ h
    · simp only [mapDelete, hq, if_neg, if_false, List.mem_cons] at h
      rcases h with h | h
      · exact h ▸ List.mem_cons_self _ _
      · exact List.mem_cons_of_mem _ (ih h)

theorem mem_keys_mapSet (m : List (K × α)) (k : K) (v : α) {x : K}
    (h : x ∈ (mapSet m k v).map Prod.fst) : x = k ∨ x ∈ m.map Prod.fst := by
  rcases List.mem_map.mp h with ⟨p, hp, hx⟩
  rcases mem_mapSet m k v hp with h' | h'
  · left; rw [← hx, h']
  · right; exact hx ▸ List.mem_map_of_mem _ h'

theorem mem_keys_mapDelete (m : List (K × α)) (k : K) {x : K}
    (h : x ∈ (mapDelete m k).map Prod.fst) : x ∈ m.map Prod.fst := by
  rcases List.mem_map.mp h with ⟨p, hp, hx⟩
  exact hx ▸ List.mem_map_of_mem _ (mem_mapDelete m k hp)

theorem nodupKeys_mapSet (m : List (K × α)) (k : K) (v : α)
    (h : (m.map Prod.fst).Nodup) : ((mapSet m k v).map Prod.fst).Nodup := by
  induction m with
  | nil => simp [mapSet]
  | cons p rest ih =>
    simp only [List.map_cons, List.nodup_cons] at h
    by_cases hp : p.1 = k
    · simp only [mapSet, hp, if_pos, List.map_cons, List.nodup_cons]
      exact ⟨hp ▸ h.1, h.2⟩
    · simp only [mapSet, hp, if_neg, if_false, List.map_cons, List.nodup_cons]
      refine ⟨fun hmem => ?_, ih h.2⟩
      rcases mem_keys_mapSet rest k v hmem with h' | h'
      · exact hp h'
      · exact h.1 h'

theorem nodupKeys_mapDelete (m : List (K × α)) (k : K)
    (h : (m.map Prod.fst).Nodup) : ((mapDelete m k).map Prod.fst).Nodup := by
  induction m with
  | nil => simp [mapDelete]
  | cons p rest ih =>
    simp only [List.map_cons, List.nodup_cons] at h
    by_cases hp : p.1 = k
    · simp only [mapDelete, hp, if_pos]
      exact h.2
    · simp only [mapDelete, hp, if_neg, if_false, List.map_cons, List.nodup_cons]
      exact ⟨fun hmem => h.1 (mem_keys_mapDelete rest k hmem), ih h.2⟩

end MapLemmas

section EngineLemmas

variable {K V : Type} [DecidableEq K]

/-- Rewriting the WAL touches no other component of the engine state. -/
theorem saveWAL_memTable (s : LSMTree K V) (ok : Bool) :
    (s.saveWAL ok).memTable = s.memTable := by
  cases ok <;> simp [LSMTree.saveWAL]

theorem saveWAL_ssTables (s : LSMTree K V) (ok : Bool) :
    (s.saveWAL ok).ssTables = s.ssTables := by
  cases ok <;> simp [LSMTree.saveWAL]

/-- Rewriting the WAL with a successful write stores the MemTable contents. -/
theorem saveWAL_true_wal (s : LSMTree K V) :
    (s.saveWAL true).wal = some s.memTable.data := by
  simp [LSMTree.saveWAL]

/-- Compaction never touches the MemTable or the WAL. -/
theorem compact_memTable_wal (s : LSMTree K V) (now id : Nat) (ok : Bool) :
    (s.compact now id ok).1.memTable = s.memTable ∧
    (s.compact now id ok).1.wal = s.wal := by
  unfold LSMTree.compact
  by_cases h : s.ssTables.length ≤ 1 <;> cases ok <;> simp [h]

/-- A present, unexpired MemTable entry is returned unchanged by
`MemTable.get` — tombstone or not. -/
theorem memTable_get_hit (m : MemTable K V) (k : K) (now : Nat) (e : Entry V)
    (hm : mapGet m.data k = some e) (hl : e.live now = true) :
    m.get k now = (some e, m) := by
  unfold MemTable.get
  rw [hm]
  simp [hl]

/-- A present but expired MemTable entry is lazily removed by
`MemTable.get`, which reports a miss. -/
theorem memTable_get_expired (m : MemTable K V) (k : K) (now : Nat)
    (e : Entry V) (hm : mapGet m.data k = some e) (hl : e.live now = false) :
    m.get k now = (none, { m with data := mapDelete m.data k }) := by
  unfold MemTable.get
  rw [hm]
  simp [hl]

/-- An engine `get` that hits an unexpired MemTable entry returns it. -/
theorem get_hit (s : LSMTree K V) (k : K) (now : Nat) (e : Entry V)
    (hm : mapGet s.memTable.data k = some e) (hl : e.live now = true) :
    (s.get k now).1 = some e := by
  have h := memTable_get_hit s.memTable k now e hm hl
  simp [LSMTree.get, h]

/-- An engine `get` whose MemTable entry is expired falls through to the
segment walk. -/
theorem get_expired_falls_through (s : LSMTree K V) (k : K) (now : Nat)
    (e : Entry V) (hm : mapGet s.memTable.data k = some e)
    (hl : e.live now = false) :
    (s.get k now).1 = getFromSegs s.ssTables k now := by
  have h := memTable_get_expired s.memTable k now e hm hl
  simp [LSMTree.get, h]

/-- Invariant 1 of the spec: the WAL on disk, when present, holds exactly
the current MemTable contents. -/
def walInv (s : LSMTree K V) : Prop :=
  s.wal = none ∨ s.wal = some s.memTable.data

/-- A flush whose filesystem writes succeed preserves the WAL invariant. -/
theorem flush_walInv (s : LSMTree K V) (now i j : Nat) (h : walInv s) :
    walInv (s.flush now (Fs.allOk i j)).1 := by
  unfold LSMTree.flush
  by_cases h0 : s.memTable.data.length = 0
  · simpa [h0] using h
  · simp only [h0, if_false, Fs.allOk, if_true]
    set s1 : LSMTree K V :=
      { s with ssTables := s.ssTables ++ [((⟨s.memTable.data, now, i, none⟩ : SSTable K V).saveToDisk s.disk).1],
               memTable := { s.memTable with data := [] },
               disk := ((⟨s.memTable.data, now, i, none⟩ : SSTable K V).saveToDisk s.disk).2 } with hs1
    by_cases hc : (s1.saveWAL true).maxSSTables < (s1.saveWAL true).ssTables.length
    · simp only [hc, if_true]
      rcases compact_memTable_wal (s1.saveWAL true) now j true with ⟨hm, hw⟩
      right
      rw [hw, hm, saveWAL_true_wal]
      simp [LSMTree.saveWAL]
    · simp only [hc, if_false]
      right
      rw [saveWAL_true_wal]
      simp [LSMTree.saveWAL]

end EngineLemmas

section FoldLemmas

variable {K V : Type} [DecidableEq K]

/-- Every pair produced by the inner compaction fold is an unexpired
non-tombstone, provided the accumulator only holds such pairs. -/
theorem merge_inner_allP (now : Nat) (l acc : List (K × Entry V))
    (hacc : ∀ p ∈ acc, p.2.value.isSome = true ∧ p.2.live now = true) :
    ∀ p ∈ l.foldl (fun a q =>
        if q.2.value.isSome && q.2.live now then mapSet a q.1 q.2 else a) acc,
      p.2.value.isSome = true ∧ p.2.live now = true := by
  induction l generalizing acc with
  | nil => exact hacc
  | cons q rest ih =>
    intro p hp
    simp only [List.foldl_cons] at hp
    refine ih _ ?_ p hp
    intro r hr
    by_cases hc : (q.2.value.isSome && q.2.live now) = true
    · rw [if_pos hc] at hr
      rcases mem_mapSet acc q.1 q.2 hr with h' | h'
      · subst h'
        simpa [Bool.and_eq_true] using hc
      · exact hacc r h'
    · rw [if_neg hc] at hr
      exact hacc r hr

/-- Outer version of `merge_inner_allP`, over the whole segment list. -/
theorem merge_outer_allP (now : Nat) (segs : List (SSTable K V))
    (acc : List (K × Entry V))
    (hacc : ∀ p ∈ acc, p.2.value.isSome = true ∧ p.2.live now = true) :
    ∀ p ∈ segs.foldl (fun acc t => t.data.foldl (fun a q =>
        if q.2.value.isSome && q.2.live now then mapSet a q.1 q.2 else a) acc) acc,
      p.2.value.isSome = true ∧ p.2.live now = true := by
  induction segs generalizing acc with
  | nil => exact hacc
  | cons t rest ih =>
    intro p hp
    simp only [List.foldl_cons] at hp
    exact ih _ (merge_inner_allP now t.data acc hacc) p hp

/-- Every pair of the compaction merge result is an unexpired
non-tombstone. -/
theorem mergeSegs_allP (now : Nat) (segs : List (SSTable K V)) :
    ∀ p ∈ mergeSegs segs now,
      p.2.value.isSome = true ∧ p.2.live now = true :=
  merge_outer_allP now segs [] (fun r hr => absurd hr (List.not_mem_nil r))

/-- Unfolding equation for the segment-file deletion loop. -/
theorem deleteFiles_cons (d : List (Nat × SegFile K V)) (t : SSTable K V)
    (rest : List (SSTable K V)) :
    deleteFiles d (t :: rest) =
      deleteFiles (match t.filePath with
        | none => d
        | some p => mapDelete d p) rest := rfl

/-- A path absent from the disk stays absent through the deletion loop. -/
theorem mapGet_deleteFiles_of_eq_none (d : List (Nat × SegFile K V))
    (segs : List (SSTable K V)) (p : Nat) (h : mapGet d p = none) :
    mapGet (deleteFiles d segs) p = none := by
  induction segs generalizing d with
  | nil => exact h
  | cons t rest ih =>
    rw [deleteFiles_cons]
    cases hfp : t.filePath with
    | none => exact ih d h
    | some q => exact ih _ (mapGet_mapDelete_of_eq_none d q h)

/-- After the deletion loop, no input segment still has its backing file on
disk (assuming distinct paths on the original disk). -/
theorem mapGet_deleteFiles_none (d : List (Nat × SegFile K V))
    (segs : List (SSTable K V)) {t : SSTable K V} {p : Nat}
    (hnd : (d.map Prod.fst).Nodup) (ht : t ∈ segs) (hp : t.filePath = some p) :
    mapGet (deleteFiles d segs) p = none := by
  induction segs generalizing d with
  | nil => cases ht
  | cons u rest ih =>
    rw [deleteFiles_cons]
    rcases List.mem_cons.mp ht with heq | hmem
    · rw [← heq, hp]
      exact mapGet_deleteFiles_of_eq_none _ rest p (mapGet_mapDelete_self d p hnd)
    · cases hfp : u.filePath with
      | none => exact ih d hnd hmem
      | some q => exact ih _ (nodupKeys_mapDelete d q hnd) hmem

/-- Folding `mapSet` over a list of unexpired pairs keeps every stored pair
unexpired. -/
theorem setAll_live (now : Nat) (l acc : List (K × Entry V))
    (hl : ∀ q ∈ l, q.2.live now = true)
    (hacc : ∀ p ∈ acc, p.2.live now = true) :
    ∀ p ∈ l.foldl (fun a q => mapSet a q.1 q.2) acc, p.2.live now = true := by
  induction l generalizing acc with
  | nil => exact hacc
  | cons q rest ih =>
    intro p hp
    simp only [List.foldl_cons] at hp
    refine ih _ (fun r hr => hl r (List.mem_cons_of_mem _ hr)) ?_ p hp
    intro r hr
    rcases mem_mapSet acc q.1 q.2 hr with h' | h'
    · subst h'
      exact hl q (List.mem_cons_self _ _)
    · exact hacc r h'

/-- The segment accumulation phase of `getAllEntries` stores only unexpired
pairs. -/
theorem segsAll_live (now : Nat) (segs : List (SSTable K V))
    (acc : List (K × Entry V)) (hacc : ∀ p ∈ acc, p.2.live now = true) :
    ∀ p ∈ segs.foldl (fun acc t =>
        (t.getAllEntries now).foldl (fun a q => mapSet a q.1 q.2) acc) acc,
      p.2.live now = true := by
  induction segs generalizing acc with
  | nil => exact hacc
  | cons t rest ih =>
    intro p hp
    simp only [List.foldl_cons] at hp
    refine ih _ ?_ p hp
    refine setAll_live now (t.getAllEntries now) acc ?_ hacc
    intro q hq
    exact (List.mem_filter.mp hq).2

/-- The MemTable application phase of `getAllEntries` stores only unexpired
pairs, provided the applied entries and the accumulator are unexpired. -/
theorem applyMem_live (now : Nat) (l acc : List (K × Entry V))
    (hl : ∀ q ∈ l, q.2.live now = true)
    (hacc : ∀ p ∈ acc, p.2.live now = true) :
    ∀ p ∈ l.foldl (fun a p =>
        if p.2.value.isSome then mapSet a p.1 p.2 else mapDelete a p.1) acc,
      p.2.live now = true := by
  induction l generalizing acc with
  | nil => exact hacc
  | cons q rest ih =>
    intro p hp
    simp only [List.foldl_cons] at hp
    refine ih _ (fun r hr => hl r (List.mem_cons_of_mem _ hr)) ?_ p hp
    intro r hr
    by_cases hc : q.2.value.isSome = true
    · rw [if_pos hc] at hr
      rcases mem_mapSet acc q.1 q.2 hr with h' | h'
      · subst h'
        exact hl q (List.mem_cons_self _ _)
      · exact hacc r h'
    · rw [if_neg hc] at hr
      exact hacc r (mem_mapDelete acc q.1 hr)

end FoldLemmas

section TombstoneLemmas

variable {K V : Type} [DecidableEq K]

/-- Folding `mapSet` preserves distinctness of the stored keys. -/
theorem setAll_nodupKeys (l acc : List (K × Entry V))
    (h : (acc.map Prod.fst).Nodup) :
    ((l.foldl (fun a q => mapSet a q.1 q.2) acc).map Prod.fst).Nodup := by
  induction l generalizing acc with
  | nil => exact h
  | cons q rest ih =>
    simp only [List.foldl_cons]
    exact ih _ (nodupKeys_mapSet acc q.1 q.2 h)

/-- The segment accumulation phase of `getAllEntries` yields distinct keys. -/
theorem segsAll_nodupKeys (now : Nat) (segs : List (SSTable K V))
    (acc : List (K × Entry V)) (h : (acc.map Prod.fst).Nodup) :
    ((segs.foldl (fun acc t =>
        (t.getAllEntries now).foldl (fun a q => mapSet a q.1 q.2) acc) acc).map
      Prod.fst).Nodup := by
  induction segs generalizing acc with
  | nil => exact h
  | cons t rest ih =>
    simp only [List.foldl_cons]
    exact ih _ (setAll_nodupKeys _ acc h)

/-- A key absent from the applied MemTable entries and from the accumulator
stays absent through the MemTable application phase. -/
theorem applyMem_preserve_none (k : K) (l acc : List (K × Entry V))
    (hk : k ∉ l.map Prod.fst) (h : mapGet acc k = none) :
    mapGet (l.foldl (fun a p =>
      if p.2.value.isSome then mapSet a p.1 p.2 else mapDelete a p.1) acc) k =
      none := by
  induction l generalizing acc with
  | nil => exact h
  | cons q rest ih =>
    simp only [List.map_cons, List.mem_cons] at hk
    push_neg at hk
    simp only [List.foldl_cons]
    refine ih _ hk.2 ?_
    by_cases hc : q.2.value.isSome = true
    · rw [if_pos hc, mapGet_mapSet_ne acc q.2 (fun he => hk.1 he.symm)]
      exact h
    · rw [if_neg hc, mapGet_mapDelete_ne acc (fun he => hk.1 he.symm)]
      exact h

/-- The MemTable application phase preserves distinctness of stored keys. -/
theorem applyMem_nodupKeys (l acc : List (K × Entry V))
    (h : (acc.map Prod.fst).Nodup) :
    (((l.foldl (fun a p =>
        if p.2.value.isSome then mapSet a p.1 p.2 else mapDelete a p.1) acc)).map
      Prod.fst).Nodup := by
  induction l generalizing acc with
  | nil => exact h
  | cons q rest ih =>
    simp only [List.foldl_cons]
    refine ih _ ?_
    by_cases hc : q.2.value.isSome = true
    · rw [if_pos hc]
      exact nodupKeys_mapSet acc q.1 q.2 h
    · rw [if_neg hc]
      exact nodupKeys_mapDelete acc q.1 h

/-- A tombstone among the applied MemTable entries removes its key from the
result of the MemTable application phase. -/
theorem applyMem_tombstone_removed (k : K) (l acc : List (K × Entry V))
    (hndl : (l.map Prod.fst).Nodup) (hnda : (acc.map Prod.fst).Nodup)
    (e : Entry V) (hmem : (k, e) ∈ l) (hv : e.value = none) :
    mapGet (l.foldl (fun a p =>
      if p.2.value.isSome then mapSet a p.1 p.2 else mapDelete a p.1) acc) k =
      none := by
  induction l generalizing acc with
  | nil => cases hmem
  | cons q rest ih =>
    simp only [List.map_cons, List.nodup_cons] at hndl
    simp only [List.foldl_cons]
    rcases List.mem_cons.mp hmem with heq | hmem'
    · have hq1 : q.1 = k := by rw [← heq]
      have hq2 : q.2.value.isSome = false := by
        rw [← heq, hv]
        rfl
      rw [hq2]
      simp only [Bool.false_eq_true, if_false]
      refine applyMem_preserve_none k rest _ (hq1 ▸ hndl.1) ?_
      rw [hq1]
      exact mapGet_mapDelete_self acc k hnda
    · refine ih _ hndl.2 ?_ hmem'
      by_cases hc : q.2.value.isSome = true
      · rw [if_pos hc]
        exact nodupKeys_mapSet acc q.1 q.2 hnda
      · rw [if_neg hc]
        exact nodupKeys_mapDelete acc q.1 hnda

end TombstoneLemmas

section Claims

variable {K V : Type} [DecidableEq K]

/-- Definitional unfolding of `LSMTree.put`. -/
theorem put_unfold (s : LSMTree K V) (k : K) (v : Option V)
    (ttl : Option (Option Nat)) (now : Nat) (fs : Fs) :
    s.put k v ttl now fs =
      if (s.memTable.put k v (resolveTtl ttl s.defaultTTL) now).2 then
        (LSMTree.saveWAL
          { s with memTable := (s.memTable.put k v (resolveTtl ttl s.defaultTTL) now).1 }
          fs.putWalOk).flush now fs
      else
        (LSMTree.saveWAL
          { s with memTable := (s.memTable.put k v (resolveTtl ttl s.defaultTTL) now).1 }
          fs.putWalOk, none) := rfl

/-- Definitional unfolding of `LSMTree.delete`. -/
theorem delete_unfold (s : LSMTree K V) (k : K) (now : Nat) (walOk : Bool) :
    s.delete k now walOk =
      (LSMTree.saveWAL { s with memTable := (s.memTable.put k none none now).1 }
        walOk, none) := rfl

/-- A compaction of more than one segment whose persist fails deletes the
input files and surfaces the error, leaving everything else unchanged. -/
theorem compact_persist_fail (s : LSMTree K V) (now id : Nat)
    (h2 : ¬ s.ssTables.length ≤ 1) :
    s.compact now id false =
      ({ s with disk := deleteFiles s.disk s.ssTables }, some Err.ioError) := by
  unfold LSMTree.compact
  rw [if_neg h2]
  simp

/-- Fresh engine used in the C1 scenario. -/
def engC1 : LSMTree Nat Nat := ⟨⟨[], 100⟩, [], 10, 60000, none, []⟩

/-- C1: the claim states that `put(k,v,ttl); delete(k); get(k)` yields a miss
because the tombstone shadows older entries. On the code it does not: the
MemTable returns the tombstone entry itself and `LSMTree.get` only checks
that an entry object was returned, so `get` yields the tombstone Entry
(value `null`), not a miss. This theorem evaluates the engine at the failing
input. -/
theorem c1_get_after_delete_returns_tombstone :
    ((((engC1.put 1 (some 5) none 0 (Fs.allOk 0 0)).1.delete 1 1
        true).1.get 1 2).1 = some ⟨none, none, 1⟩) ∧
    ((((engC1.put 1 (some 5) none 0 (Fs.allOk 0 0)).1.delete 1 1
        true).1.get 1 2).1 ≠ none) := by
  constructor
  · decide
  · decide

/-- Two-segment engine whose files are both on disk, used in the C2 scenario. -/
def engC2 : LSMTree Nat Nat :=
  ⟨⟨[], 100⟩,
   [⟨[(1, ⟨some 7, none, 0⟩)], 0, 10, some 10⟩,
    ⟨[(2, ⟨some 8, none, 1⟩)], 1, 11, some 11⟩],
   10, 60000, none,
   [(10, ⟨10, 0, [(1, ⟨some 7, none, 0⟩)]⟩),
    (11, ⟨11, 1, [(2, ⟨some 8, none, 1⟩)]⟩)]⟩

/-- C2 (counterexample): when persisting the merged segment fails, the input
segment files do NOT remain on disk — compaction already deleted them — so
the claim is false at this concrete engine. -/
theorem c2_cex_persist_failure_inputs_gone :
    (engC2.compact 5 12 false).1.disk = [] ∧
    (engC2.compact 5 12 false).2 = some Err.ioError := by
  constructor
  · decide
  · decide

/-- C2 (amended): compaction discards every input segment file from disk
BEFORE persisting the merged segment; if persisting fails, the engine
surfaces an I/O error, the in-memory segment list still holds the original
segments, but their backing files are already gone from disk. -/
theorem c2_compact_discards_inputs_before_persist (s : LSMTree K V)
    (now id : Nat) (h2 : 2 ≤ s.ssTables.length)
    (hnd : (s.disk.map Prod.fst).Nodup) :
    (s.compact now id false).2 = some Err.ioError ∧
    (s.compact now id false).1.ssTables = s.ssTables ∧
    (s.compact now id false).1.disk = deleteFiles s.disk s.ssTables ∧
    ∀ t ∈ s.ssTables, ∀ p : Nat, t.filePath = some p →
      mapGet (s.compact now id false).1.disk p = none := by
  have h1 : ¬ s.ssTables.length ≤ 1 := by omega
  rw [compact_persist_fail s now id h1]
  refine ⟨rfl, rfl, rfl, ?_⟩
  intro t ht p hp
  exact mapGet_deleteFiles_none s.disk s.ssTables hnd ht hp

/-- C2 (witness): the amended theorem applied to the concrete two-segment
engine. -/
theorem c2_compact_discards_inputs_before_persist_witness :
    (engC2.compact 5 12 false).2 = some Err.ioError ∧
    mapGet (engC2.compact 5 12 false).1.disk 10 = none :=
  ⟨(c2_compact_discards_inputs_before_persist engC2 5 12 (by decide)
      (by decide)).1,
   (c2_compact_discards_inputs_before_persist engC2 5 12 (by decide)
      (by decide)).2.2.2 ⟨[(1, ⟨some 7, none, 0⟩)], 0, 10, some 10⟩ (by decide)
      10 rfl⟩

/-- Engine holding one expired MemTable entry faithfully mirrored by the
WAL, used in the C3 scenario. -/
def engC3 : LSMTree Nat Nat :=
  ⟨⟨[(1, ⟨some 7, some 10, 0⟩)], 100⟩, [], 10, 60000,
   some [(1, ⟨some 7, some 10, 0⟩)], []⟩

/-- C3 (counterexample): a lookup that lazily removes an expired entry
mutates the MemTable without rewriting the WAL, so immediately after the
lookup the WAL on disk is present but differs from the MemTable contents —
the claimed invariant is broken by `get`. -/
theorem c3_cex_lookup_breaks_wal_invariant :
    (engC3.get 1 20).2.wal ≠ some ((engC3.get 1 20).2.memTable.data) ∧
    (engC3.get 1 20).2.wal ≠ none := by
  constructor
  · decide
  · decide

/-- C3 (amended): the operations that deliberately change the MemTable —
`put`, `delete` and `flush` — do leave the WAL equal to the new MemTable
contents when the WAL writes succeed; the lazy removal performed by a
lookup does not (see the counterexample). -/
theorem c3_mutators_preserve_wal_invariant (s : LSMTree K V) (k : K)
    (v : Option V) (ttl : Option (Option Nat)) (now i j : Nat)
    (h : walInv s) :
    walInv (s.put k v ttl now (Fs.allOk i j)).1 ∧
    walInv (s.delete k now true).1 ∧
    walInv (s.flush now (Fs.allOk i j)).1 := by
  have hpw : (Fs.allOk i j).putWalOk = true := rfl
  refine ⟨?_, ?_, flush_walInv s now i j h⟩
  · rw [put_unfold, hpw]
    by_cases hf : (s.memTable.put k v (resolveTtl ttl s.defaultTTL) now).2 = true
    · rw [if_pos hf]
      refine flush_walInv _ now i j (Or.inr ?_)
      rw [saveWAL_true_wal, saveWAL_memTable]
    · rw [if_neg hf]
      refine Or.inr ?_
      rw [saveWAL_true_wal, saveWAL_memTable]
  · rw [delete_unfold]
    refine Or.inr ?_
    rw [saveWAL_true_wal, saveWAL_memTable]

/-- C3 (witness): the amended theorem applied to the concrete engine. -/
theorem c3_mutators_preserve_wal_invariant_witness :
    walInv ((engC3.put 2 (some 9) none 0 (Fs.allOk 3 4)).1) :=
  (c3_mutators_preserve_wal_invariant engC3 2 (some 9) none 0 3 4
    (Or.inr rfl)).1

/-- A flush on a non-empty MemTable whose segment persist fails surfaces the
error and leaves the engine state untouched. -/
theorem flush_persist_fail (s : LSMTree K V) (now : Nat) (fs : Fs)
    (hp : fs.flushPersistOk = false) (hne : s.memTable.data ≠ []) :
    s.flush now fs = (s, some Err.ioError) := by
  unfold LSMTree.flush
  rw [if_neg (fun h => hne (List.length_eq_zero.mp h)), hp]
  simp

/-- Fresh engine with MemTable capacity 1, used in the C4 scenario. -/
def engC4 : LSMTree Nat Nat := ⟨⟨[], 1⟩, [], 10, 60000, none, []⟩

/-- C4 (counterexample): a `put` whose WAL rewrite fails but which triggers
no flush succeeds anyway — `saveWAL` catches and logs the write error — so
the claim that put fails with an IoError whenever the WAL rewrite fails is
false at this concrete input. -/
theorem c4_cex_put_succeeds_despite_wal_failure :
    ((⟨⟨[], 100⟩, [], 10, 60000, none, []⟩ : LSMTree Nat Nat).put 1 (some 5)
        none 0 ⟨false, true, true, true, 0, 0⟩).2 = none := by
  decide

/-- C4 (amended): `put` fails with an IoError exactly when the flush it
triggers fails to persist the new segment (a WAL rewrite failure is
silently swallowed); in that failure case the MemTable mutation is not
rolled back — the freshly written entry is still present in the MemTable. -/
theorem c4_put_fails_when_flush_fails (s : LSMTree K V) (k : K)
    (v : Option V) (ttl : Option (Option Nat)) (now : Nat) (fs : Fs)
    (hp : fs.flushPersistOk = false)
    (hfull : (s.memTable.put k v (resolveTtl ttl s.defaultTTL) now).2 = true) :
    (s.put k v ttl now fs).2 = some Err.ioError ∧
    mapGet (s.put k v ttl now fs).1.memTable.data k =
      some ⟨v, mkExpires (resolveTtl ttl s.defaultTTL) now, now⟩ := by
  have hput : s.put k v ttl now fs =
      (LSMTree.saveWAL
        { s with memTable := (s.memTable.put k v (resolveTtl ttl s.defaultTTL) now).1 }
        fs.putWalOk).flush now fs := by
    rw [put_unfold, if_pos hfull]
  have hdata : (LSMTree.saveWAL
      { s with memTable := (s.memTable.put k v (resolveTtl ttl s.defaultTTL) now).1 }
      fs.putWalOk).memTable.data =
      mapSet s.memTable.data k ⟨v, mkExpires (resolveTtl ttl s.defaultTTL) now, now⟩ := by
    rw [saveWAL_memTable]
    rfl
  have hne : (LSMTree.saveWAL
      { s with memTable := (s.memTable.put k v (resolveTtl ttl s.defaultTTL) now).1 }
      fs.putWalOk).memTable.data ≠ [] := by
    rw [hdata]
    exact mapSet_ne_nil _ _ _
  rw [hput, flush_persist_fail _ now fs hp hne]
  exact ⟨rfl, by rw [hdata]; exact mapGet_mapSet_self _ _ _⟩

/-- C4 (witness): the amended theorem applied to a concrete put that fills
the capacity-1 MemTable while the segment persist fails. -/
theorem c4_put_fails_when_flush_fails_witness :
    ((engC4.memTable.put 1 (some 5) (resolveTtl none engC4.defaultTTL) 0).2 =
      true) ∧
    (engC4.put 1 (some 5) none 0 ⟨true, false, true, true, 0, 0⟩).2 =
      some Err.ioError ∧
    mapGet (engC4.put 1 (some 5) none 0
        ⟨true, false, true, true, 0, 0⟩).1.memTable.data 1 =
      some ⟨some 5, mkExpires (resolveTtl none engC4.defaultTTL) 0, 0⟩ :=
  ⟨by decide,
   (c4_put_fails_when_flush_fails engC4 1 (some 5) none 0
      ⟨true, false, true, true, 0, 0⟩ rfl (by decide)).1,
   (c4_put_fails_when_flush_fails engC4 1 (some 5) none 0
      ⟨true, false, true, true, 0, 0⟩ rfl (by decide)).2⟩

/-- Engine holding a tombstone inside a segment, used in the C5
counterexample. -/
def engC5 : LSMTree Nat Nat :=
  ⟨⟨[], 100⟩, [⟨[(1, ⟨none, none, 0⟩)], 0, 10, some 10⟩], 10, 60000, none, []⟩

/-- C5 (counterexample): `list()` DOES return a tombstone when the tombstone
resides in a segment and is not shadowed by the MemTable — the segment
accumulation filters only expiry, never the `null` value — so the claim is
false at this concrete engine. -/
theorem c5_cex_list_returns_segment_tombstone :
    (engC5.getAllEntries 1).1 = [(1, ⟨none, none, 0⟩)] := by
  decide

/-- Definitional unfolding of the result list of `LSMTree.getAllEntries`. -/
theorem getAllEntries_unfold (s : LSMTree K V) (now : Nat) :
    (s.getAllEntries now).1 =
      (s.memTable.data.filter (fun p => p.2.live now)).foldl
        (fun a p =>
          if p.2.value.isSome then mapSet a p.1 p.2 else mapDelete a p.1)
        (s.ssTables.foldl (fun acc t =>
          (t.getAllEntries now).foldl (fun a q => mapSet a q.1 q.2) acc) []) :=
  rfl

/-- C5 (amended): `list()` accumulates unexpired entries from the oldest
segment to the newest and applies the MemTable last; no returned entry is
expired, and an unexpired MemTable tombstone removes its key from the
result. (A tombstone residing only in a segment can still be returned —
see the counterexample.) -/
theorem c5_list_live_and_memtable_tombstone_removed (s : LSMTree K V)
    (now : Nat) (k : K) (e : Entry V)
    (hnd : (s.memTable.data.map Prod.fst).Nodup)
    (hget : mapGet s.memTable.data k = some e)
    (hv : e.value = none) (hl : e.live now = true) :
    (∀ p ∈ (s.getAllEntries now).1, p.2.live now = true) ∧
    mapGet (s.getAllEntries now).1 k = none := by
  rw [getAllEntries_unfold]
  constructor
  · refine applyMem_live now _ _ ?_ ?_
    · intro q hq
      exact (List.mem_filter.mp hq).2
    · exact segsAll_live now s.ssTables []
        (fun r hr => absurd hr (List.not_mem_nil r))
  · refine applyMem_tombstone_removed k _ _ ?_ ?_ e ?_ hv
    · exact List.Nodup.sublist
        ((s.memTable.data.filter_sublist).map Prod.fst) hnd
    · exact segsAll_nodupKeys now s.ssTables [] List.nodup_nil
    · exact List.mem_filter.mpr ⟨mapGet_mem _ hget, hl⟩

/-- Engine with an unexpired MemTable tombstone shadowing a segment entry,
used in the C5 witness. -/
def engC5w : LSMTree Nat Nat :=
  ⟨⟨[(1, ⟨none, none, 5⟩)], 100⟩,
   [⟨[(1, ⟨some 7, none, 0⟩), (2, ⟨some 8, none, 0⟩)], 0, 10, some 10⟩],
   10, 60000, none, []⟩

/-- C5 (witness): the amended theorem applied to the concrete engine. -/
theorem c5_list_live_and_memtable_tombstone_removed_witness :
    ((engC5w.memTable.data.map Prod.fst).Nodup ∧
      mapGet engC5w.memTable.data 1 = some ⟨none, none, 5⟩) ∧
    mapGet (engC5w.getAllEntries 9).1 1 = none :=
  ⟨⟨by decide, by decide⟩,
   (c5_list_live_and_memtable_tombstone_removed engC5w 9 1 ⟨none, none, 5⟩
      (by decide) (by decide) rfl rfl).2⟩

/-- Fresh engine with MemTable capacity 1, used in the C6 counterexample. -/
def engC6 : LSMTree Nat Nat := ⟨⟨[], 1⟩, [], 10, 60000, none, []⟩

/-- C6 (counterexample): at a MemTable that reaches capacity on the insert,
`delete(k)` is NOT equivalent to `put(k, tombstone, null)` — the put
triggers a flush (clearing the MemTable and creating a segment) while the
delete discards the full-table flag — so the claimed equivalence is false
at this concrete engine. -/
theorem c6_cex_delete_differs_from_put_at_capacity :
    (engC6.delete 1 0 (Fs.allOk 7 8).putWalOk).1 ≠
      (engC6.put 1 none (some none) 0 (Fs.allOk 7 8)).1 := by
  decide

/-- C6 (amended): `delete(key)` always succeeds (even when the key is
absent) and never touches the segment list; when the insert does not report
the MemTable full it produces exactly the state of `put(key, tombstone,
null)` — but unlike `put` it never triggers a flush when the MemTable
reports full. -/
theorem c6_delete_is_put_without_flush (s : LSMTree K V) (k : K) (now : Nat)
    (fs : Fs) :
    (s.delete k now fs.putWalOk).2 = none ∧
    (s.delete k now fs.putWalOk).1.ssTables = s.ssTables ∧
    ((s.memTable.put k none none now).2 = false →
      s.delete k now fs.putWalOk = s.put k none (some none) now fs) := by
  refine ⟨rfl, ?_, ?_⟩
  · rw [delete_unfold]
    exact saveWAL_ssTables _ _
  · intro hnf
    have hr : resolveTtl (some none) s.defaultTTL = (none : Option Nat) := rfl
    have hcond :
        ¬ ((s.memTable.put k none (resolveTtl (some none) s.defaultTTL)
          now).2 = true) := by
      rw [hr, hnf]
      exact Bool.false_ne_true
    rw [delete_unfold, put_unfold, if_neg hcond, hr]

/-- Fresh engine with a large MemTable, used in the C6 witness. -/
def engC6w : LSMTree Nat Nat := ⟨⟨[], 100⟩, [], 10, 60000, none, []⟩

/-- C6 (witness): the amended theorem applied to the concrete engine. -/
theorem c6_delete_is_put_without_flush_witness :
    ((engC6w.memTable.put 1 none none 0).2 = false) ∧
    engC6w.delete 1 0 (Fs.allOk 4 5).putWalOk =
      engC6w.put 1 none (some none) 0 (Fs.allOk 4 5) :=
  ⟨by decide,
   (c6_delete_is_put_without_flush engC6w 1 0 (Fs.allOk 4 5)).2.2 (by decide)⟩

/-- A compaction of more than one segment whose persist succeeds replaces
the segment list with the single merged segment and writes its file. -/
theorem compact_persist_ok (s : LSMTree K V) (now id : Nat)
    (h2 : ¬ s.ssTables.length ≤ 1) :
    s.compact now id true =
      ({ s with
          ssTables := [⟨mergeSegs s.ssTables now, now, id, some id⟩],
          disk := mapSet (deleteFiles s.disk s.ssTables) id
            ⟨id, now, mergeSegs s.ssTables now⟩ }, none) := by
  unfold LSMTree.compact
  rw [if_neg h2]
  simp [SSTable.saveToDisk]

/-- C7: after a compaction whose input is more than one segment (and whose
persist succeeds), the engine holds exactly one segment, and that segment
contains no tombstone and no entry expired at the compaction instant. -/
theorem c7_compaction_yields_single_clean_segment (s : LSMTree K V)
    (now id : Nat) (h2 : 2 ≤ s.ssTables.length) :
    (s.compact now id true).1.ssTables.length = 1 ∧
    ∀ t ∈ (s.compact now id true).1.ssTables, ∀ p ∈ t.data,
      p.2.value.isSome = true ∧ p.2.live now = true := by
  have h1 : ¬ s.ssTables.length ≤ 1 := by omega
  rw [compact_persist_ok s now id h1]
  refine ⟨rfl, ?_⟩
  intro t ht p hp
  rcases List.mem_singleton.mp ht with rfl
  exact mergeSegs_allP now s.ssTables p hp

/-- Two-segment engine holding a tombstone and an expired entry, used in
the C7 witness. -/
def engC7 : LSMTree Nat Nat :=
  ⟨⟨[], 100⟩,
   [⟨[(1, ⟨some 7, some 3, 0⟩), (2, ⟨none, none, 0⟩)], 0, 10, some 10⟩,
    ⟨[(3, ⟨some 9, none, 1⟩)], 1, 11, some 11⟩],
   10, 60000, none, []⟩

/-- C7 (witness): the theorem applied to the concrete two-segment engine. -/
theorem c7_compaction_yields_single_clean_segment_witness :
    (2 ≤ engC7.ssTables.length) ∧
    (engC7.compact 5 12 true).1.ssTables.length = 1 :=
  ⟨by decide,
   (c7_compaction_yields_single_clean_segment engC7 5 12 (by decide)).1⟩

/-- C8: flush on an empty MemTable is a no-op; flush on a non-empty
MemTable (when the new segment count stays within the bound, so no
compaction follows, and the writes succeed) seals the MemTable into a new
segment with `created_at = now`, persists it, appends it to the segment
list, clears the MemTable and rewrites the WAL to empty. -/
theorem c8_flush_seals_and_clears (s : LSMTree K V) (now i j : Nat) :
    (s.memTable.data = [] → s.flush now (Fs.allOk i j) = (s, none)) ∧
    (s.memTable.data ≠ [] → s.ssTables.length + 1 ≤ s.maxSSTables →
      s.flush now (Fs.allOk i j) =
        ({ s with
            ssTables := s.ssTables ++ [⟨s.memTable.data, now, i, some i⟩],
            memTable := { s.memTable with data := [] },
            wal := some [],
            disk := mapSet s.disk i ⟨i, now, s.memTable.data⟩ }, none)) := by
  constructor
  · intro h0
    unfold LSMTree.flush
    rw [if_pos (by rw [h0]; rfl)]
  · intro h0 hcap
    have hlen : ¬ s.memTable.data.length = 0 :=
      fun h => h0 (List.length_eq_zero.mp h)
    have hc : ¬ s.maxSSTables < s.ssTables.length + 1 := by omega
    simp only [LSMTree.flush, hlen, if_false, Fs.allOk, LSMTree.saveWAL,
      SSTable.saveToDisk, Option.getD_none, if_true, List.length_append,
      List.length_singleton, hc]

/-- Engine with one MemTable entry, used in the C8 witness. -/
def engC8 : LSMTree Nat Nat :=
  ⟨⟨[(1, ⟨some 7, none, 0⟩)], 100⟩, [], 10, 60000, none, []⟩

/-- C8 (witness): the theorem applied to an empty and to a non-empty
MemTable. -/
theorem c8_flush_seals_and_clears_witness :
    ((⟨⟨[], 100⟩, [], 10, 60000, none, []⟩ : LSMTree Nat Nat).flush 5
        (Fs.allOk 1 2) =
      ((⟨⟨[], 100⟩, [], 10, 60000, none, []⟩ : LSMTree Nat Nat), none)) ∧
    engC8.flush 5 (Fs.allOk 42 43) =
      ((⟨⟨[], 100⟩, [⟨[(1, ⟨some 7, none, 0⟩)], 5, 42, some 42⟩], 10, 60000,
        some [], [(42, ⟨42, 5, [(1, ⟨some 7, none, 0⟩)]⟩)]⟩ :
          LSMTree Nat Nat), none) :=
  ⟨(c8_flush_seals_and_clears _ 5 1 2).1 rfl,
   (c8_flush_seals_and_clears engC8 5 42 43).2 (by decide) (by decide)⟩

/-- Fresh engine used in the C9 witness. -/
def engC9 : LSMTree Nat Nat := ⟨⟨[], 100⟩, [], 10, 60000, none, []⟩

/-- C9: a `put` whose `ttl` argument is omitted behaves exactly as a `put`
given `default_ttl_ms` explicitly, and a `put` with an explicit `ttl = 0`
stores the entry with no expiry, so (absent a flush) a `get` at any later
time returns it. -/
theorem c9_ttl_default_and_zero (s : LSMTree K V) (k : K) (v : V) (now : Nat)
    (fs : Fs)
    (hnf : (s.memTable.put k (some v) (some 0) now).2 = false) :
    s.put k (some v) none now fs =
      s.put k (some v) (some (some s.defaultTTL)) now fs ∧
    ∀ later : Nat,
      (((s.put k (some v) (some (some 0)) now fs).1).get k later).1 =
        some ⟨some v, none, now⟩ := by
  constructor
  · rfl
  · intro later
    have hr : resolveTtl (some (some 0)) s.defaultTTL = some 0 := rfl
    have hcond : ¬ ((s.memTable.put k (some v)
        (resolveTtl (some (some 0)) s.defaultTTL) now).2 = true) := by
      rw [hr, hnf]
      exact Bool.false_ne_true
    have hput : (s.put k (some v) (some (some 0)) now fs).1 =
        LSMTree.saveWAL
          { s with memTable := (s.memTable.put k (some v) (some 0) now).1 }
          fs.putWalOk := by
      rw [put_unfold, if_neg hcond, hr]
    refine get_hit _ k later ⟨some v, none, now⟩ ?_ rfl
    rw [hput, saveWAL_memTable]
    have hdd : ({ s with
        memTable := (s.memTable.put k (some v) (some 0) now).1 } :
          LSMTree K V).memTable.data =
        mapSet s.memTable.data k ⟨some v, none, now⟩ := rfl
    rw [hdd]
    exact mapGet_mapSet_self _ _ _

/-- C9 (witness): the theorem applied to a concrete engine and a very late
lookup instant. -/
theorem c9_ttl_default_and_zero_witness :
    ((engC9.memTable.put 1 (some 5) (some 0) 0).2 = false) ∧
    (((engC9.put 1 (some 5) (some (some 0)) 0 (Fs.allOk 0 0)).1).get 1
        123456789).1 = some ⟨some 5, none, 0⟩ :=
  ⟨by decide,
   (c9_ttl_default_and_zero engC9 1 5 0 (Fs.allOk 0 0) (by decide)).2
      123456789⟩

/-- C10: the engine accepts `put(k, null, ttl)` and stores a tombstone that
carries an expiry (defaulting to `default_ttl_ms` when the ttl is omitted);
once the tombstone has expired, a later `get(k)` lazily drops it and falls
through to the segments, returning an older still-unexpired entry — the
deletion is silently undone. -/
theorem c10_expired_tombstone_resurrects (s : LSMTree K V) (k : K)
    (now t2 : Nat) (e : Entry V) (fs : Fs)
    (hnf : (s.memTable.put k none (some s.defaultTTL) now).2 = false)
    (hd : 0 < s.defaultTTL)
    (ht : now + s.defaultTTL < t2)
    (hseg : getFromSegs s.ssTables k t2 = some e) :
    mapGet ((s.put k none none now fs).1).memTable.data k =
      some ⟨none, some (now + s.defaultTTL), now⟩ ∧
    (((s.put k none none now fs).1).get k t2).1 = some e := by
  have hr : resolveTtl none s.defaultTTL = some s.defaultTTL := rfl
  have hcond : ¬ ((s.memTable.put k none
      (resolveTtl none s.defaultTTL) now).2 = true) := by
    rw [hr, hnf]
    exact Bool.false_ne_true
  have hput : (s.put k none none now fs).1 =
      LSMTree.saveWAL
        { s with memTable := (s.memTable.put k none (some s.defaultTTL) now).1 }
        fs.putWalOk := by
    rw [put_unfold, if_neg hcond, hr]
  have hexp : mkExpires (some s.defaultTTL) now = some (now + s.defaultTTL) := by
    have h0 : s.defaultTTL ≠ 0 := by omega
    simp [mkExpires, h0]
  have hdata : ((s.put k none none now fs).1).memTable.data =
      mapSet s.memTable.data k ⟨none, some (now + s.defaultTTL), now⟩ := by
    rw [hput, saveWAL_memTable]
    have hdd : ({ s with
        memTable := (s.memTable.put k none (some s.defaultTTL) now).1 } :
          LSMTree K V).memTable.data =
        mapSet s.memTable.data k
          ⟨none, mkExpires (some s.defaultTTL) now, now⟩ := rfl
    rw [hdd, hexp]
  have hmm : mapGet ((s.put k none none now fs).1).memTable.data k =
      some ⟨none, some (now + s.defaultTTL), now⟩ := by
    rw [hdata]
    exact mapGet_mapSet_self _ _ _
  refine ⟨hmm, ?_⟩
  have hlive : (⟨none, some (now + s.defaultTTL), now⟩ : Entry V).live t2 =
      false := by
    simp only [Entry.live, decide_eq_false_iff_not]
    omega
  rw [get_expired_falls_through _ k t2 _ hmm hlive]
  have hss : ((s.put k none none now fs).1).ssTables = s.ssTables := by
    rw [hput]
    exact saveWAL_ssTables _ _
  rw [hss]
  exact hseg

/-- Engine holding an old live entry in a segment, used in the C10
witness. -/
def engC10 : LSMTree Nat Nat :=
  ⟨⟨[], 100⟩, [⟨[(1, ⟨some 7, none, 0⟩)], 0, 10, some 10⟩], 10, 60000, none,
   []⟩

/-- C10 (witness): the theorem applied to the concrete engine, deleting at
instant 5 and reading after the tombstone expiry. -/
theorem c10_expired_tombstone_resurrects_witness :
    ((engC10.memTable.put 1 none (some engC10.defaultTTL) 5).2 = false ∧
      getFromSegs engC10.ssTables 1 60006 = some ⟨some 7, none, 0⟩) ∧
    (((engC10.put 1 none none 5 (Fs.allOk 0 0)).1).get 1 60006).1 =
      some ⟨some 7, none, 0⟩ :=
  ⟨⟨by decide, by decide⟩,
   (c10_expired_tombstone_resurrects engC10 1 5 60006 ⟨some 7, none, 0⟩
      (Fs.allOk 0 0) (by decide) (by decide) (by decide) (by decide)).2⟩

end Claims

end LsmCache
